import Mathlib

/-!
# Verification of the session-scoped RAG core (`ai_app/rag_utils.py`)

This file gives a shallow embedding, in Lean 4, of the retrieval-augmented
generation core of the repository: text cleaning, sentence-aligned chunking
with word overlap, the in-memory session store, embedding (de)serialization,
and similarity retrieval with diversity re-ranking.  Python strings are
modelled as `String`/`List Char`, word lists as `List (List Char)`,
floating-point vectors as lists of rationals (`List ℚ`), and the three
session dictionaries as extensional maps `String → Option _`.  The embedding
model (`SentenceTransformer.encode`) is an external collaborator and is
passed in as an abstract function parameter.

Definitions are translated from the Python source; each definition's doc
comment names the Python function it embeds.
-/

/-- Python's whitespace class restricted to the ASCII characters that both
`str.split()` and the regex `\s` treat as whitespace:
space, tab, newline, carriage return, vertical tab, form feed. -/
def pySpace (c : Char) : Bool :=
  c = ' ' ∨ c = '\t' ∨ c = '\n' ∨ c = '\r' ∨ c = '\x0b' ∨ c = '\x0c'

/-- Worker for Python `str.split()` (split on whitespace runs, no empty
words).  When `inWord` is `true` we are in the middle of a word and the head
of the result is the continuation of that word; when `inWord` is `false`
every returned word is complete. -/
def pyWordsAux (inWord : Bool) : List Char → List (List Char)
  | [] => if inWord then [[]] else []
  | c :: rest =>
    if pySpace c then
      if inWord then [] :: pyWordsAux false rest else pyWordsAux false rest
    else
      match pyWordsAux true rest with
      | [] => [[c]]
      | w :: ws => (c :: w) :: ws

/-- Python `str.split()` with no arguments: the whitespace-separated words of
a character sequence, with no empty words. -/
def pyWords (cs : List Char) : List (List Char) :=
  pyWordsAux false cs

/-- Sentence-terminating punctuation of the regex `(?<=[.!?])\s+` used by
`split_text_intelligent`. -/
def sentPunct (c : Char) : Bool :=
  c = '.' ∨ c = '!' ∨ c = '?'

/-- Worker for Python `re.split(r'(?<=[.!?])\s+', text)`.  `prevPunct` says
whether the previously scanned character was `.`/`!`/`?`; `inSep` says
whether we are inside a whitespace separator run.  Outside a separator the
head of the result is the continuation of the current sentence; inside a
separator the head is the next sentence. -/
def sentencesAux (prevPunct inSep : Bool) : List Char → List (List Char)
  | [] => [[]]
  | c :: rest =>
    if pySpace c then
      if inSep then
        sentencesAux false true rest
      else if prevPunct then
        [] :: sentencesAux false true rest
      else
        match sentencesAux false false rest with
        | [] => [[c]]
        | s :: ss => (c :: s) :: ss
    else
      match sentencesAux (sentPunct c) false rest with
      | [] => [[c]]
      | s :: ss => (c :: s) :: ss

/-- Python `re.split(r'(?<=[.!?])\s+', text)`: split text into sentences at
whitespace runs that immediately follow `.`, `!` or `?`.  The separator run
is consumed; a lookbehind cannot match at the start of the string. -/
def splitSentences (cs : List Char) : List (List Char) :=
  sentencesAux false false cs

/-- Python `" ".join(words)` on a list of words. -/
def joinWords : List (List Char) → List Char
  | [] => []
  | [w] => w
  | w :: w' :: ws => w ++ ' ' :: joinWords (w' :: ws)

example : pyWords "a b".toList = [['a'], ['b']] := by decide
example : pyWords "  ab  c ".toList = [['a', 'b'], ['c']] := by decide
example : splitSentences "a. b".toList = [['a', '.'], ['b']] := by decide
example : splitSentences "a.b c".toList = [['a', '.', 'b', ' ', 'c']] := by decide
example : splitSentences "".toList = [[]] := by decide
example : splitSentences "a.  ".toList = [['a', '.'], []] := by decide

/-- The control characters removed by `clean_text`:
`[\x00-\x08\x0b-\x0c\x0e-\x1f\x7f-\x9f]`. -/
def isCtl (c : Char) : Bool :=
  c.toNat ≤ 0x08 ∨ (0x0b ≤ c.toNat ∧ c.toNat ≤ 0x0c) ∨
    (0x0e ≤ c.toNat ∧ c.toNat ≤ 0x1f) ∨ (0x7f ≤ c.toNat ∧ c.toNat ≤ 0x9f)

/-- Python `re.sub(r'\s+', ' ', text)`: collapse every whitespace run to a
single space.  `inWs` records whether the previous character was part of a
whitespace run already rewritten to `' '`. -/
def collapseWsAux (inWs : Bool) : List Char → List Char
  | [] => []
  | c :: rest =>
    if pySpace c then
      if inWs then collapseWsAux true rest else ' ' :: collapseWsAux true rest
    else
      c :: collapseWsAux false rest

/-- The ligature fixes of `clean_text`: `replace('ﬁ', 'fi')` then
`replace('ﬂ', 'fl')` (the two replaced characters are distinct, so the two
sequential passes amount to one character-wise expansion). -/
def ligFix (cs : List Char) : List Char :=
  cs.flatMap fun c =>
    if c = 'ﬁ' then ['f', 'i'] else if c = 'ﬂ' then ['f', 'l'] else [c]

/-- Python `str.strip()`: remove leading and trailing whitespace. -/
def pyStrip (cs : List Char) : List Char :=
  ((cs.dropWhile pySpace).reverse.dropWhile pySpace).reverse

/-- `clean_text(text)`: collapse whitespace, remove control characters,
normalize the fi/fl ligatures, strip. -/
def clean_text (cs : List Char) : List Char :=
  pyStrip (ligFix ((collapseWsAux false cs).filter fun c => ¬ isCtl c))

/-- The Python list slice `l[-n:]` for a natural `n`.  Note the Python
quirk: `-0 == 0`, so `l[-0:]` is `l[0:] = l`, not the empty suffix. -/
def pyTailSlice (n : Nat) (l : List α) : List α :=
  if n = 0 then l else l.drop (l.length - n)

/-- The last `n` elements of a list (all of it when it has at most `n`). -/
def takeLast (n : Nat) (l : List α) : List α :=
  l.drop (l.length - n)

/-- The sentence-accumulation loop of `split_text_intelligent`.  The input
list holds the (character-level) sentences still to process;
`current_chunk` is the word list of the chunk being built and
`current_size` the running word count maintained by the source.  The source
appends `" ".join(current_chunk)` to `chunks` at close time; since the
accumulated chunks are never read back, we keep each chunk as its word list
and join in the wrapper `split_text_intelligent`. -/
def splitChunks (chunk_size overlap : Nat) :
    List (List Char) → List (List Char) → Nat → List (List (List Char))
  | [], current_chunk, _ => if current_chunk = [] then [] else [current_chunk]
  | sentence :: rest, current_chunk, current_size =>
    let sentence_words := pyWords sentence
    let sentence_size := sentence_words.length
    if current_size + sentence_size > chunk_size ∧ current_chunk ≠ [] then
      let overlap_words :=
        if current_chunk.length > overlap then pyTailSlice overlap current_chunk
        else current_chunk
      current_chunk ::
        splitChunks chunk_size overlap rest (overlap_words ++ sentence_words)
          (overlap_words ++ sentence_words).length
    else
      splitChunks chunk_size overlap rest (current_chunk ++ sentence_words)
        (current_size + sentence_size)

/-- `split_text_intelligent(text, chunk_size, overlap)`: split into
sentences at `[.!?]`-terminated whitespace boundaries, then greedily pack
sentences into chunks of at most `chunk_size` words (soft cap) with an
`overlap`-word overlap seeded from each closed chunk. -/
def split_text_intelligent (text : String) (chunk_size overlap : Nat) :
    List String :=
  (splitChunks chunk_size overlap (splitSentences text.toList) [] 0).map
    fun chunk => String.mk (joinWords chunk)

/-- The chunk-accumulation loop as the specification states it: close the
current chunk when the next sentence would push the running word count (the
length of the current chunk) past `chunk_size`, and seed the next chunk
with the last `overlap` words of the just-closed chunk, or all of its words
when it has at most `overlap` words. -/
def splitChunksSpec (chunk_size overlap : Nat) :
    List (List Char) → List (List Char) → List (List (List Char))
  | [], current_chunk => if current_chunk = [] then [] else [current_chunk]
  | sentence :: rest, current_chunk =>
    let sentence_words := pyWords sentence
    if current_chunk.length + sentence_words.length > chunk_size ∧
        current_chunk ≠ [] then
      let seed :=
        if current_chunk.length ≤ overlap then current_chunk
        else takeLast overlap current_chunk
      current_chunk :: splitChunksSpec chunk_size overlap rest (seed ++ sentence_words)
    else
      splitChunksSpec chunk_size overlap rest (current_chunk ++ sentence_words)

/-- The chunker as the specification describes it (same sentence splitting
and joining as the source; the seeding rule follows the spec's words). -/
def split_text_spec (text : String) (chunk_size overlap : Nat) : List String :=
  (splitChunksSpec chunk_size overlap (splitSentences text.toList) []).map
    fun chunk => String.mk (joinWords chunk)

example : split_text_intelligent "a. b." 1 0 = ["a.", "a. b."] := by decide
example : split_text_spec "a. b." 1 0 = ["a.", "b."] := by decide
example : split_text_intelligent "a. b." 1 2 = ["a.", "a. b."] := by decide
example : split_text_intelligent "" 500 100 = [] := by decide
example : split_text_intelligent "x y z. w v." 3 1 = ["x y z.", "z. w v."] := by decide

/-- Embedding vectors (`numpy` float arrays) modelled as lists of rationals. -/
abbrev Vec := List ℚ

/-- `np.dot` on two vectors. -/
def dot (v w : Vec) : ℚ :=
  (List.zipWith (fun a b => a * b) v w).sum

/-- Modelled from the spec: the durable persistence layer serializes a
vector with `pickle.dumps` (library code, not in `src/`); the spec requires
only that the binary format "must round-trip vectors exactly, including
dimensionality".  We model the pickle byte string as a list of integers
holding each rational's numerator and denominator in order. -/
def pickle_dumps (v : Vec) : List Int :=
  v.foldr (fun q acc => q.num :: (q.den : Int) :: acc) []

/-- Modelled from the spec: `pickle.loads`, the inverse of
`pickle_dumps`. -/
def pickle_loads : List Int → Vec
  | n :: d :: rest => ((n : ℚ) / (d : ℚ)) :: pickle_loads rest
  | _ => []

/-- `serialize_embedding(embedding)`: convert a vector to bytes for
database storage (delegates to pickle). -/
def serialize_embedding (embedding : Vec) : List Int :=
  pickle_dumps embedding

/-- `deserialize_embedding(embedding_bytes)`: convert bytes back to a
vector (delegates to pickle). -/
def deserialize_embedding (embedding_bytes : List Int) : Vec :=
  pickle_loads embedding_bytes

/-- The per-chunk metadata dict
`{doc_id, doc_name, chunk_id, char_count}`. -/
structure ChunkMeta where
  doc_id : String
  doc_name : String
  chunk_id : Nat
  char_count : Nat
deriving DecidableEq

/-- The three module-level session dictionaries `session_documents`,
`session_embeddings`, `session_metadata`, modelled extensionally as maps
from session id to the optional stored list. -/
@[ext]
structure DocStore where
  session_documents : String → Option (List String)
  session_embeddings : String → Option (List Vec)
  session_metadata : String → Option (List ChunkMeta)

/-- The empty store (all dictionaries empty). -/
def emptyStore : DocStore :=
  ⟨fun _ => none, fun _ => none, fun _ => none⟩

/-- Point update of one dictionary (`d[k] = v` / `del d[k]`). -/
def mapUpdate (m : String → Option α) (k : String) (v : Option α) :
    String → Option α :=
  fun s => if s = k then v else m s

/-- `d[k].append(x)` for a present key (the sources only append after
ensuring the key is present; an absent key is left unchanged). -/
def mapAppend (m : String → Option (List α)) (k : String) (x : α) :
    String → Option (List α) :=
  fun s => if s = k then (m k).map (fun l => l ++ [x]) else m s

/-- The lazy session initialization shared by
`process_document_text_with_storage` and `load_session_from_database`:
if `session_id not in session_documents`, set all three entries to `[]`. -/
def initSession (session_id : String) (store : DocStore) : DocStore :=
  if (store.session_documents session_id).isSome then store
  else
    { session_documents := mapUpdate store.session_documents session_id (some []),
      session_embeddings := mapUpdate store.session_embeddings session_id (some []),
      session_metadata := mapUpdate store.session_metadata session_id (some []) }

/-- One iteration of the storage loop of
`process_document_text_with_storage`: embed one chunk and append text,
vector and metadata to the session's three lists. -/
def appendChunk (embed : String → Vec) (session_id : String)
    (chunk : String) (meta : ChunkMeta) (st : DocStore) : DocStore :=
  { session_documents := mapAppend st.session_documents session_id chunk,
    session_embeddings := mapAppend st.session_embeddings session_id (embed chunk),
    session_metadata := mapAppend st.session_metadata session_id meta }

/-- `process_document_text_with_storage(text, doc_id, session_id, doc_name)`:
clean the text, chunk it with the default `chunk_size=500, overlap=100`,
and append every chunk with its normalized embedding and metadata to the
session. -/
def process_document_text_with_storage (embed : String → Vec)
    (text doc_id session_id doc_name : String) (store : DocStore) : DocStore :=
  let store := initSession session_id store
  let cleaned := String.mk (clean_text text.toList)
  let chunks := split_text_intelligent cleaned 500 100
  chunks.enum.foldl
    (fun st p =>
      appendChunk embed session_id p.2
        ⟨doc_id, doc_name, p.1, p.2.length⟩ st)
    store

/-- One `DocumentEmbedding` database row as read by
`load_session_from_database` (chunk text, pickled vector, parent document's
id and filename, chunk index). -/
structure DocumentEmbeddingRec where
  chunk_text : String
  embedding_vector : List Int
  document_id : String
  document_original_filename : String
  chunk_index : Nat

/-- `load_session_from_database(session_id, document_embeddings)`: lazily
initialize the session, then append each persisted row's chunk text,
deserialized vector and metadata. -/
def load_session_from_database (session_id : String)
    (document_embeddings : List DocumentEmbeddingRec) (store : DocStore) :
    DocStore :=
  let store := initSession session_id store
  document_embeddings.foldl
    (fun st r =>
      { session_documents := mapAppend st.session_documents session_id r.chunk_text,
        session_embeddings :=
          mapAppend st.session_embeddings session_id
            (deserialize_embedding r.embedding_vector),
        session_metadata :=
          mapAppend st.session_metadata session_id
            ⟨r.document_id, r.document_original_filename, r.chunk_index,
              r.chunk_text.length⟩ })
    store

/-- `clear_session_documents(session_id)`: delete the session's entry from
each of the three dictionaries when present (extensionally: set it to
`none`). -/
def clear_session_documents (session_id : String) (store : DocStore) : DocStore :=
  { session_documents := mapUpdate store.session_documents session_id none,
    session_embeddings := mapUpdate store.session_embeddings session_id none,
    session_metadata := mapUpdate store.session_metadata session_id none }

/-- `clear_document_store()`: clear all three dictionaries. -/
def clear_document_store (_store : DocStore) : DocStore :=
  emptyStore

/-- The per-session stats dict
`{session_id, total_chunks, unique_documents}`. -/
structure SessionStats where
  session_id : String
  total_chunks : Nat
  unique_documents : Nat
deriving DecidableEq

/-- Python truthiness of the optional `session_id` parameter of
`get_session_stats` (default `None`): both `None` and the empty string
are falsy. -/
def pyTruthy : Option String → Bool
  | none => false
  | some s => s ≠ ""

/-- The two result shapes of `get_session_stats`: the per-session stats
dict, or the aggregate dict `{total_sessions, total_chunks, sessions}`
computed over all sessions.  The aggregate totals iterate the session
dictionary's keys, which the extensional map model cannot enumerate, so
the aggregate result is represented by an opaque constructor; note it has
no `unique_documents` entry at all. -/
inductive SessionStatsResult where
  | aggregate
  | perSession (stats : SessionStats)
deriving DecidableEq

/-- `get_session_stats(session_id)`: the source branches on
`if session_id:` (Python truthiness), so `None` and the empty string take
the aggregate branch.  A truthy id gets zero counts for an absent
session, otherwise the chunk count and the number of distinct `doc_id`s
in the session's metadata. -/
def get_session_stats (store : DocStore) (session_id : Option String) :
    SessionStatsResult :=
  if pyTruthy session_id then
    let sid := session_id.getD ""
    match store.session_documents sid with
    | none => .perSession ⟨sid, 0, 0⟩
    | some docs =>
      .perSession
        ⟨sid, docs.length,
          (((store.session_metadata sid).getD []).map
            (fun m => m.doc_id)).dedup.length⟩
  else .aggregate

/-- The store operations named by the parallel-arrays invariant: ingestion,
database rehydration, per-session clear, global clear. -/
inductive StoreOp where
  | ingest (text doc_id session_id doc_name : String)
  | load (session_id : String) (records : List DocumentEmbeddingRec)
  | clearSession (session_id : String)
  | clearAll

/-- Apply one store operation. -/
def applyOp (embed : String → Vec) (st : DocStore) : StoreOp → DocStore
  | .ingest text doc_id session_id doc_name =>
    process_document_text_with_storage embed text doc_id session_id doc_name st
  | .load session_id records => load_session_from_database session_id records st
  | .clearSession session_id => clear_session_documents session_id st
  | .clearAll => clear_document_store st

/-- Run a sequence of store operations from the empty store. -/
def runOps (embed : String → Vec) (ops : List StoreOp) : DocStore :=
  ops.foldl (applyOp embed) emptyStore

/-- `np.argsort(similarities)`: the indices `0, …, N-1` sorted so that the
corresponding scores are ascending, modelled with a stable sort (ties keep
index order). -/
def argsortAsc (xs : List ℚ) : List Nat :=
  (List.range xs.length).mergeSort fun i j => decide (xs.getD i 0 ≤ xs.getD j 0)

/-- The candidate's diversity term in `rerank_with_diversity`: the minimum
of `1 - np.dot(embeddings[idx], embeddings[sel_idx])` over the already
selected indices (`selected` is never empty at the call site; Python's
`min` on an empty list would raise). -/
def diversityMin (embeddings : List Vec) (selected : List Nat) (idx : Nat) : ℚ :=
  match selected.map (fun sel_idx => 1 - dot (embeddings.getD idx []) (embeddings.getD sel_idx [])) with
  | [] => 0
  | x :: xs => xs.foldl min x

/-- `combined_score = (1 - diversity_weight) * relevance + diversity_weight * diversity`. -/
def combined_score (similarities : List ℚ) (embeddings : List Vec)
    (diversity_weight : ℚ) (selected : List Nat) (idx : Nat) : ℚ :=
  (1 - diversity_weight) * similarities.getD idx 0 +
    diversity_weight * diversityMin embeddings selected idx

/-- `c` is greater than the running best score, whose initial value is
`-float('inf')` (modelled by `none`, smaller than everything). -/
def gtOpt (c : ℚ) : Option ℚ → Bool
  | none => true
  | some b => decide (b < c)

/-- The inner `for idx in remaining` loop of `rerank_with_diversity`:
running best index and best score, updated on a strictly greater combined
score (so the earliest maximizer wins). -/
def findBestAux (score : Nat → ℚ) :
    List Nat → Option Nat → Option ℚ → Option Nat
  | [], best_idx, _ => best_idx
  | idx :: rest, best_idx, best_score =>
    if gtOpt (score idx) best_score then
      findBestAux score rest (some idx) (some (score idx))
    else
      findBestAux score rest best_idx best_score

/-- The `while len(selected) < top_k and remaining` loop of
`rerank_with_diversity`.  `fuel` is the number of selections still allowed
(`top_k - len(selected)`); each iteration appends the best remaining
candidate and removes it from `remaining` (Python `list.remove`: first
occurrence). -/
def rerankLoop (similarities : List ℚ) (embeddings : List Vec)
    (diversity_weight : ℚ) :
    Nat → List Nat → List Nat → List Nat
  | 0, selected, _ => selected
  | _ + 1, selected, [] => selected
  | fuel + 1, selected, r :: rs =>
    match
      findBestAux
        (combined_score similarities embeddings diversity_weight selected)
        (r :: rs) none none with
    | none => selected
    | some best_idx =>
      rerankLoop similarities embeddings diversity_weight fuel
        (selected ++ [best_idx]) ((r :: rs).erase best_idx)

/-- `rerank_with_diversity(candidate_indices, similarities, embeddings,
top_k, diversity_weight)`: return short candidate lists as-is, otherwise
seed the selection with the first (most relevant) candidate and greedily
add the candidate with the best combined relevance/diversity score until
`top_k` are selected or the candidates are exhausted. -/
def rerank_with_diversity (candidate_indices : List Nat)
    (similarities : List ℚ) (embeddings : List Vec) (top_k : Nat)
    (diversity_weight : ℚ) : List Nat :=
  if candidate_indices.length ≤ top_k then candidate_indices
  else
    match candidate_indices with
    | [] => []
    | c :: rest =>
      rerankLoop similarities embeddings diversity_weight (top_k - 1) [c] rest

/-- `retrieve_chunks(query, session_id, top_k)`: `None` session ids fall
back to `"default"`; an absent or empty session returns the sentinel;
otherwise score all chunks by dot product with the query embedding, keep
the slice `argsort(similarities)[-num_candidates:]` reversed (via
`pyTailSlice`, so `num_candidates = 0` keeps all `N` indices — the Python
`[-0:]` quirk), re-rank for diversity and return the selected chunk
texts.  The call site passes the default `diversity_weight = 0.3`. -/
def retrieve_chunks (embed : String → Vec) (query : String)
    (session_id : Option String) (top_k : Nat) (store : DocStore) :
    List String :=
  let sid := session_id.getD "default"
  match store.session_embeddings sid with
  | none => ["No document uploaded yet."]
  | some embeddings =>
    if embeddings = [] then ["No document uploaded yet."]
    else
      let query_emb := embed query
      let similarities := embeddings.map fun emb => dot query_emb emb
      let num_candidates := min (top_k * 2) similarities.length
      let top_indices :=
        (pyTailSlice num_candidates (argsortAsc similarities)).reverse
      let selected_indices :=
        rerank_with_diversity top_indices similarities embeddings top_k (3 / 10)
      let documents := (store.session_documents sid).getD []
      selected_indices.map fun i => documents.getD i ""

/-- Spec-side shortlist: the `min(2 * top_k, N)` highest-scoring chunk
indices, ordered descending by score (realized as the first elements of the
reversed ascending stable argsort; the claim does not constrain the
relative order of tied scores). -/
def shortlistSpec (similarities : List ℚ) (top_k : Nat) : List Nat :=
  ((argsortAsc similarities).reverse).take (min (2 * top_k) similarities.length)

/-- Spec-side greedy pick: of the remaining shortlisted candidates, the one
maximizing the given score, ties broken toward the earlier shortlist rank
(the first maximizer in shortlist order). -/
def specPick (score : Nat → ℚ) : List Nat → Option Nat
  | [] => none
  | x :: xs => some (xs.foldl (fun b i => if score i > score b then i else b) x)

/-- Spec-side greedy selection: repeatedly pick the combined-score
maximizer from the remaining candidates, stopping once `top_k` chunks are
selected (the seed plus `fuel` picks) or the candidates are exhausted. -/
def specGreedy (similarities : List ℚ) (embeddings : List Vec)
    (diversity_weight : ℚ) :
    Nat → List Nat → List Nat → List Nat
  | 0, selected, _ => selected
  | fuel + 1, selected, remaining =>
    match
      specPick
        (combined_score similarities embeddings diversity_weight selected)
        remaining with
    | none => selected
    | some best =>
      specGreedy similarities embeddings diversity_weight fuel
        (selected ++ [best]) (remaining.erase best)

/-- The retrieval pipeline as claim C1 states it: score by dot product,
shortlist the `min(2 * top_k, N)` highest scorers descending, return the
shortlist as-is when it has at most `top_k` members, and otherwise seed
with the single highest-relevance candidate and greedily maximize
`(1 - 0.3) * relevance + 0.3 * diversity`, returning the selected chunks'
texts in selection order. -/
def retrieveSpec (embed : String → Vec) (query : String)
    (session_id : Option String) (top_k : Nat) (store : DocStore) :
    List String :=
  let sid := session_id.getD "default"
  match store.session_embeddings sid with
  | none => ["No document uploaded yet."]
  | some embeddings =>
    if embeddings = [] then ["No document uploaded yet."]
    else
      let similarities := embeddings.map fun emb => dot (embed query) emb
      let shortlist := shortlistSpec similarities top_k
      let documents := (store.session_documents sid).getD []
      let selected :=
        if shortlist.length ≤ top_k then shortlist
        else
          match shortlist with
          | [] => []
          | c :: rest =>
            specGreedy similarities embeddings (3 / 10) (top_k - 1) [c] rest
      selected.map fun i => documents.getD i ""

/-- The parallel-arrays invariant of the session store: for every session
the three stored lists have equal length, and the three dictionaries have
exactly the same set of keys. -/
def StoreConsistent (st : DocStore) : Prop :=
  ∀ s : String,
    ((st.session_documents s).getD []).length =
        ((st.session_embeddings s).getD []).length ∧
      ((st.session_documents s).getD []).length =
        ((st.session_metadata s).getD []).length ∧
      ((st.session_documents s).isSome ↔ (st.session_embeddings s).isSome) ∧
      ((st.session_documents s).isSome ↔ (st.session_metadata s).isSome)

/-- The whitespace-split words of a chunk string. -/
def chunkWords (c : String) : List (List Char) :=
  pyWords c.toList

/-- Helper for `reconstructWords`: drop each chunk's first
`min(overlap, number of words of the previous chunk)` words and
concatenate. -/
def reconWordsAux (ov : Nat) : List (List Char) → List String → List (List Char)
  | _, [] => []
  | prev, c :: cs =>
    (chunkWords c).drop (min ov prev.length) ++ reconWordsAux ov (chunkWords c) cs

/-- The overlap-deduplicated word sequence of a chunk list: the words of the
first chunk, then for each later chunk its words after the first
`min(overlap, number of words of the previous chunk)` words. -/
def reconstructWords (ov : Nat) : List String → List (List Char)
  | [] => []
  | c :: cs => chunkWords c ++ reconWordsAux ov (chunkWords c) cs

/-- Token-level variant of `reconWordsAux` on chunks kept as word lists. -/
def reconTokAux (ov : Nat) :
    List (List Char) → List (List (List Char)) → List (List Char)
  | _, [] => []
  | prev, c :: cs => c.drop (min ov prev.length) ++ reconTokAux ov c cs

/-- Token-level variant of `reconstructWords`. -/
def reconTok (ov : Nat) : List (List (List Char)) → List (List Char)
  | [] => []
  | c :: cs => c ++ reconTokAux ov c cs

/-- `consJoin ws r`: prepend the word list `ws` (continuation of the
current word first) onto the flattened remainder `r`; used to state how the
words of a character sequence decompose across its first sentence. -/
def consJoin : List (List Char) → List (List Char) → List (List Char)
  | [], r => r
  | h :: t, r => h :: (t ++ r)

/-- A small concrete store used by the witnesses: one session `"s1"`
holding three chunks with two-dimensional vectors. -/
def sampleStore : DocStore :=
  { session_documents := fun s =>
      if s = "s1" then some ["c0", "c1", "c2"] else none,
    session_embeddings := fun s =>
      if s = "s1" then some [[1, 0], [9/10, 1/2], [0, 1]] else none,
    session_metadata := fun s => if s = "s1" then some [] else none }

/-- A one-chunk store used by the C1 counterexample. -/
def miniStore : DocStore :=
  { session_documents := fun s => if s = "s1" then some ["c0"] else none,
    session_embeddings := fun s => if s = "s1" then some [[1]] else none,
    session_metadata := fun s => if s = "s1" then some [] else none }

/-! ## Easy store and retrieval facts -/

/-- Helper: retrieval returns the sentinel whenever the session's
embedding entry is absent or empty. -/
theorem retrieve_sentinel_of_absent_or_empty
    (embed : String → Vec) (query : String) (session_id : Option String)
    (top_k : Nat) (store : DocStore)
    (h : store.session_embeddings (session_id.getD "default") = none ∨
      store.session_embeddings (session_id.getD "default") = some []) :
    retrieve_chunks embed query session_id top_k store =
      ["No document uploaded yet."] := by
  unfold retrieve_chunks
  rcases h with h | h <;> simp [h]

/-- C2: retrieval from an absent or empty session returns exactly the
single-element sentinel sequence, never an empty sequence and never an
error. -/
theorem C2_absent_or_empty_session_returns_sentinel
    (embed : String → Vec) (query : String) (session_id : Option String)
    (top_k : Nat) (store : DocStore)
    (h : store.session_embeddings (session_id.getD "default") = none ∨
      store.session_embeddings (session_id.getD "default") = some []) :
    retrieve_chunks embed query session_id top_k store =
      ["No document uploaded yet."] :=
  retrieve_sentinel_of_absent_or_empty embed query session_id top_k store h

/-- Witness for C2 at a concrete empty store. -/
theorem C2_absent_or_empty_session_returns_sentinel_witness :
    retrieve_chunks (fun _ => []) "query" (some "s1") 5 emptyStore =
      ["No document uploaded yet."] :=
  C2_absent_or_empty_session_returns_sentinel (fun _ => []) "query" (some "s1")
    5 emptyStore (Or.inl rfl)

/-- C9: retrieval is a deterministic function of the query, session id,
`top_k` and store: there is no hidden randomness, and two calls whose
embedder returns identical vectors for identical input (the embedder's
contract) give the same ordered result. -/
theorem C9_retrieval_deterministic
    (e1 e2 : String → Vec) (query : String) (session_id : Option String)
    (top_k : Nat) (store : DocStore) (h : ∀ t, e1 t = e2 t) :
    retrieve_chunks e1 query session_id top_k store =
      retrieve_chunks e2 query session_id top_k store := by
  have he : e1 = e2 := funext h
  rw [he]

/-- Witness for C9 at a concrete embedder and store. -/
theorem C9_retrieval_deterministic_witness :
    retrieve_chunks (fun _ => [1]) "q" none 3 emptyStore =
      retrieve_chunks (fun _ => [1]) "q" none 3 emptyStore :=
  C9_retrieval_deterministic (fun _ => [1]) (fun _ => [1]) "q" none 3
    emptyStore (fun _ => rfl)

/-- C8: deserializing a serialized vector gives back the vector exactly,
every component equal and the dimensionality preserved. -/
theorem C8_serialize_roundtrip (v : Vec) :
    deserialize_embedding (serialize_embedding v) = v := by
  unfold serialize_embedding deserialize_embedding
  induction v with
  | nil => rfl
  | cons q rest ih =>
    have hd : pickle_dumps (q :: rest) =
        q.num :: (q.den : Int) :: pickle_dumps rest := rfl
    rw [hd, pickle_loads]
    rw [ih]
    congr 1
    push_cast
    exact Rat.num_div_den q

/-- C7 (amended): clearing a session removes it from all three
dictionaries, is idempotent, is a no-op on an absent session, retrieval
afterwards returns the sentinel, and for every non-empty session id the
session's stats are zero.  (For the empty session id the source's
`if session_id:` truthiness check routes `get_session_stats` to the
aggregate branch instead of per-session stats.) -/
theorem C7_clear_session_removes_and_is_idempotent
    (store : DocStore) (sid : String) (embed : String → Vec) (query : String)
    (top_k : Nat) :
    (clear_session_documents sid store).session_documents sid = none ∧
      (clear_session_documents sid store).session_embeddings sid = none ∧
      (clear_session_documents sid store).session_metadata sid = none ∧
      clear_session_documents sid (clear_session_documents sid store) =
        clear_session_documents sid store ∧
      (store.session_documents sid = none →
        store.session_embeddings sid = none →
        store.session_metadata sid = none →
        clear_session_documents sid store = store) ∧
      (sid ≠ "" →
        get_session_stats (clear_session_documents sid store) (some sid) =
          SessionStatsResult.perSession ⟨sid, 0, 0⟩) ∧
      retrieve_chunks embed query (some sid) top_k
          (clear_session_documents sid store) =
        ["No document uploaded yet."] := by
  refine ⟨by simp [clear_session_documents, mapUpdate],
    by simp [clear_session_documents, mapUpdate],
    by simp [clear_session_documents, mapUpdate], ?_, ?_, ?_, ?_⟩
  · ext s <;> simp [clear_session_documents, mapUpdate]
  · intro h1 h2 h3
    ext s <;> by_cases hs : s = sid <;>
      simp [clear_session_documents, mapUpdate, hs, h1, h2, h3]
  · intro hsid
    simp [get_session_stats, pyTruthy, hsid, clear_session_documents,
      mapUpdate]
  · exact retrieve_sentinel_of_absent_or_empty embed query (some sid)
      top_k _ (Or.inl (by simp [clear_session_documents, mapUpdate]))

/-- Counterexample to C7 as stated: the empty string is falsy in Python,
so after `clear_session_documents("")` the call `get_session_stats("")`
takes the aggregate branch — the store-wide totals dict, which has no
`unique_documents` entry and whose `total_chunks` sums every session
(three here, since session `"s1"` is untouched) — not the per-session
zero stats the claim asserts. -/
theorem C7_counterexample :
    get_session_stats (clear_session_documents "" sampleStore) (some "") ≠
      SessionStatsResult.perSession ⟨"", 0, 0⟩ := by
  simp [get_session_stats, pyTruthy]

/-- Witness for C7 at a concrete store and session id. -/
theorem C7_clear_session_removes_and_is_idempotent_witness :
    (clear_session_documents "s1" emptyStore).session_documents "s1" = none ∧
      (clear_session_documents "s1" emptyStore).session_embeddings "s1" = none ∧
      (clear_session_documents "s1" emptyStore).session_metadata "s1" = none ∧
      clear_session_documents "s1" (clear_session_documents "s1" emptyStore) =
        clear_session_documents "s1" emptyStore ∧
      (emptyStore.session_documents "s1" = none →
        emptyStore.session_embeddings "s1" = none →
        emptyStore.session_metadata "s1" = none →
        clear_session_documents "s1" emptyStore = emptyStore) ∧
      ("s1" ≠ "" →
        get_session_stats (clear_session_documents "s1" emptyStore) (some "s1") =
          SessionStatsResult.perSession ⟨"s1", 0, 0⟩) ∧
      retrieve_chunks (fun _ => []) "q" (some "s1") 5
          (clear_session_documents "s1" emptyStore) =
        ["No document uploaded yet."] :=
  C7_clear_session_removes_and_is_idempotent emptyStore "s1" (fun _ => []) "q" 5

/-! ## C4: the parallel-arrays invariant -/

/-- The empty store is consistent. -/
theorem storeConsistent_empty : StoreConsistent emptyStore := by
  intro s
  simp [emptyStore]

/-- Any property of the accumulator preserved by each step is preserved by
`List.foldl`. -/
theorem foldl_preserve {α : Type _} {β : Type _} (P : α → Prop) (f : α → β → α)
    (hf : ∀ a b, P a → P (f a b)) :
    ∀ (l : List β) (a : α), P a → P (l.foldl f a) := by
  intro l
  induction l with
  | nil => exact fun a h => h
  | cons b l ih => exact fun a h => ih (f a b) (hf a b h)

/-- Lazy session initialization preserves the invariant. -/
theorem initSession_consistent (sid : String) (st : DocStore)
    (h : StoreConsistent st) : StoreConsistent (initSession sid st) := by
  unfold initSession
  split
  · exact h
  · intro s
    by_cases hs : s = sid
    · simp [mapUpdate, hs]
    · simpa [mapUpdate, hs] using h s

/-- Appending one (text, vector, metadata) triple to a session preserves
the invariant. -/
theorem tripleAppend_consistent (sid : String) (c : String) (v : Vec)
    (m : ChunkMeta) (st : DocStore) (h : StoreConsistent st) :
    StoreConsistent
      { session_documents := mapAppend st.session_documents sid c,
        session_embeddings := mapAppend st.session_embeddings sid v,
        session_metadata := mapAppend st.session_metadata sid m } := by
  intro s
  obtain ⟨h1, h2, h3, h4⟩ := h s
  by_cases hs : s = sid
  · subst hs
    rcases hdoc : st.session_documents s with _ | l1 <;>
      rcases hemb : st.session_embeddings s with _ | l2 <;>
        rcases hmet : st.session_metadata s with _ | l3 <;>
          simp [mapAppend, hdoc, hemb, hmet] at h1 h2 h3 h4 ⊢ <;>
            omega
  · simpa [mapAppend, hs] using h s

/-- `process_document_text_with_storage` preserves the invariant. -/
theorem process_consistent (embed : String → Vec)
    (text doc_id session_id doc_name : String) (st : DocStore)
    (h : StoreConsistent st) :
    StoreConsistent
      (process_document_text_with_storage embed text doc_id session_id doc_name st) := by
  unfold process_document_text_with_storage
  exact foldl_preserve StoreConsistent _
    (fun a b ha => tripleAppend_consistent session_id _ _ _ a ha) _ _
    (initSession_consistent session_id st h)

/-- `load_session_from_database` preserves the invariant. -/
theorem load_consistent (session_id : String)
    (records : List DocumentEmbeddingRec) (st : DocStore)
    (h : StoreConsistent st) :
    StoreConsistent (load_session_from_database session_id records st) := by
  unfold load_session_from_database
  exact foldl_preserve StoreConsistent _
    (fun a b ha => tripleAppend_consistent session_id _ _ _ a ha) _ _
    (initSession_consistent session_id st h)

/-- `clear_session_documents` preserves the invariant. -/
theorem clear_consistent (session_id : String) (st : DocStore)
    (h : StoreConsistent st) :
    StoreConsistent (clear_session_documents session_id st) := by
  intro s
  by_cases hs : s = session_id
  · simp [clear_session_documents, mapUpdate, hs]
  · simpa [clear_session_documents, mapUpdate, hs] using h s

/-- C4: after any sequence of store operations (ingestion, database
rehydration, per-session clear, global clear) from the empty store, every
session's three parallel lists have equal length and the three session
dictionaries have exactly the same keys. -/
theorem C4_parallel_arrays_invariant (embed : String → Vec)
    (ops : List StoreOp) : StoreConsistent (runOps embed ops) := by
  unfold runOps
  refine foldl_preserve StoreConsistent _ ?_ ops emptyStore storeConsistent_empty
  intro st op h
  cases op with
  | ingest text doc_id session_id doc_name =>
    exact process_consistent embed text doc_id session_id doc_name st h
  | load session_id records => exact load_consistent session_id records st h
  | clearSession session_id => exact clear_consistent session_id st h
  | clearAll => exact storeConsistent_empty

/-! ## C3: the chunk-seeding rule -/

/-- For a positive overlap the source's seed expression
(`current_chunk[-overlap:] if len(current_chunk) > overlap else current_chunk`)
agrees with the spec's "last `overlap` words, or the whole chunk when it
has at most `overlap` words".  (At `overlap = 0` they differ: the Python
slice `[-0:]` keeps the whole chunk.) -/
theorem seed_eq {α : Type _} (ov : Nat) (hov : 0 < ov) (cur : List α) :
    (if cur.length > ov then pyTailSlice ov cur else cur) =
      (if cur.length ≤ ov then cur else takeLast ov cur) := by
  unfold pyTailSlice takeLast
  by_cases h : cur.length > ov
  · simp [h, Nat.not_le.mpr h, Nat.pos_iff_ne_zero.mp hov]
  · simp [h, Nat.not_lt.mp h]

/-- For a positive overlap, the source's accumulation loop (with its
running `current_size` equal to the length of the current chunk) agrees
with the spec-side loop. -/
theorem splitChunks_eq_spec (cs ov : Nat) (hov : 0 < ov) :
    ∀ (sents : List (List Char)) (cur : List (List Char)),
      splitChunks cs ov sents cur cur.length = splitChunksSpec cs ov sents cur := by
  intro sents
  induction sents with
  | nil => intro cur; rfl
  | cons s rest ih =>
    intro cur
    rw [splitChunks, splitChunksSpec]
    simp only []
    split
    · rw [seed_eq ov hov cur]
      exact congrArg _ (ih _)
    · rw [show cur.length + (pyWords s).length = (cur ++ pyWords s).length by
        simp]
      exact ih _

/-- C3 (amended): for every positive overlap the chunker accumulates
sentences greedily exactly as the claim describes, closing the current
chunk when the next sentence would push the word count past `chunk_size`,
seeding the new chunk with the last `overlap` words of the closed chunk
(all of them when it has at most `overlap` words) followed by the new
sentence's words, and emitting the final partial chunk exactly when
non-empty. -/
theorem C3_chunker_seeding_rule (text : String) (chunk_size overlap : Nat)
    (hov : 0 < overlap) (_hlt : overlap < chunk_size) :
    split_text_intelligent text chunk_size overlap =
      split_text_spec text chunk_size overlap := by
  unfold split_text_intelligent split_text_spec
  have h := splitChunks_eq_spec chunk_size overlap hov
    (splitSentences text.toList) []
  rw [List.length_nil] at h
  rw [h]

/-- Counterexample to C3 as stated: at `overlap = 0` (allowed by
`overlap < chunk_size`) the code seeds the new chunk with the entire
closed chunk — the Python slice `current_chunk[-0:]` is the whole list —
not with the last `0` words the claim describes. -/
theorem C3_counterexample :
    (0 : Nat) < 1 ∧
      split_text_intelligent "a. b." 1 0 ≠ split_text_spec "a. b." 1 0 := by
  constructor
  · decide
  · decide

/-- Witness for C3 (amended) at a concrete configuration. -/
theorem C3_chunker_seeding_rule_witness :
    (0 : Nat) < 1 ∧ (1 : Nat) < 2 ∧
      split_text_intelligent "a. b." 2 1 = split_text_spec "a. b." 2 1 :=
  ⟨by decide, by decide, C3_chunker_seeding_rule "a. b." 2 1 (by decide) (by decide)⟩

/-! ## Words and sentences -/

/-- Every character of every word produced by `pyWordsAux` is
non-whitespace. -/
theorem pyWordsAux_nonspace :
    ∀ (cs : List Char) (m : Bool) (w : List Char), w ∈ pyWordsAux m cs →
      ∀ c ∈ w, pySpace c = false := by
  intro cs
  induction cs with
  | nil =>
    intro m w hw c hc
    cases m <;> simp [pyWordsAux] at hw
    subst hw
    simp at hc
  | cons a rest ih =>
    intro m w hw c hc
    by_cases ha : pySpace a
    · cases m <;> simp [pyWordsAux, ha] at hw
      · exact ih false w hw c hc
      · rcases hw with hw | hw
        · subst hw; simp at hc
        · exact ih false w hw c hc
    · have hrec := ih true
      rcases hws : pyWordsAux true rest with _ | ⟨w', ws'⟩ <;>
        cases m <;> simp [pyWordsAux, ha, hws] at hw
      · subst hw
        simp at hc
        subst hc
        simpa using ha
      · subst hw
        simp at hc
        subst hc
        simpa using ha
      · rcases hw with hw | hw
        · subst hw
          simp at hc
          rcases hc with hc | hc
          · subst hc; simpa using ha
          · exact hrec w' (by simp [hws]) c hc
        · exact hrec w (by simp [hws, hw]) c hc
      · rcases hw with hw | hw
        · subst hw
          simp at hc
          rcases hc with hc | hc
          · subst hc; simpa using ha
          · exact hrec w' (by simp [hws]) c hc
        · exact hrec w (by simp [hws, hw]) c hc

/-- `pyWordsAux true` never returns the empty list (its head is the
continuation of the current word). -/
theorem pyWordsAux_true_ne_nil : ∀ cs : List Char, pyWordsAux true cs ≠ [] := by
  intro cs
  cases cs with
  | nil => simp [pyWordsAux]
  | cons c rest =>
    by_cases hc : pySpace c
    · simp [pyWordsAux, hc]
    · rcases hws : pyWordsAux true rest with _ | ⟨w, ws⟩ <;>
        simp [pyWordsAux, hc, hws]

/-- Completed words are never empty: every word of `pyWordsAux false` and
every word after the head of `pyWordsAux true` is non-empty. -/
theorem pyWordsAux_ne_nil :
    ∀ cs : List Char,
      (∀ w ∈ pyWordsAux false cs, w ≠ []) ∧
        (∀ w ∈ (pyWordsAux true cs).tail, w ≠ []) := by
  intro cs
  induction cs with
  | nil => simp [pyWordsAux]
  | cons c rest ih =>
    by_cases hc : pySpace c
    · simp only [pyWordsAux, hc, if_true]
      exact ⟨ih.1, by simpa using ih.1⟩
    · rcases hws : pyWordsAux true rest with _ | ⟨w, ws⟩
      · simp [pyWordsAux, hc, hws]
      · have htail := ih.2
        rw [hws] at htail
        simp only [pyWordsAux, hc, if_false, hws, Bool.false_eq_true]
        constructor
        · intro u hu
          simp at hu
          rcases hu with hu | hu
          · subst hu; simp
          · exact htail u (by simpa using hu)
        · intro u hu
          exact htail u (by simpa using hu)

/-- The sentence splitter always returns at least one sentence. -/
theorem sentencesAux_ne_nil :
    ∀ (cs : List Char) (p i : Bool), sentencesAux p i cs ≠ [] := by
  intro cs
  induction cs with
  | nil => intro p i; simp [sentencesAux]
  | cons c rest ih =>
    intro p i
    by_cases hc : pySpace c
    · cases i
      · cases p
        · rcases hss : sentencesAux false false rest with _ | ⟨s, ss⟩ <;>
            simp [sentencesAux, hc, hss]
        · simp [sentencesAux, hc]
      · simpa [sentencesAux, hc] using ih false true
    · rcases hss : sentencesAux (sentPunct c) false rest with _ | ⟨s, ss⟩ <;>
        simp [sentencesAux, hc, hss]

/-- Scanning a fully non-whitespace character sequence in word mode yields
that sequence as the single (continuation) word. -/
theorem pyWordsAux_true_of_nonspace :
    ∀ w : List Char, (∀ c ∈ w, pySpace c = false) → pyWordsAux true w = [w] := by
  intro w
  induction w with
  | nil => intro _; rfl
  | cons c r ih =>
    intro h
    have hc : pySpace c = false := h c (by simp)
    have hr := ih fun d hd => h d (by simp [hd])
    simp [pyWordsAux, hc, hr]

/-- Scanning a non-whitespace word followed by a space closes that word. -/
theorem pyWordsAux_true_append_space :
    ∀ (w t : List Char), (∀ c ∈ w, pySpace c = false) →
      pyWordsAux true (w ++ ' ' :: t) = w :: pyWordsAux false t := by
  intro w
  induction w with
  | nil =>
    intro t _
    simp [pyWordsAux, pySpace]
  | cons c r ih =>
    intro t h
    have hc : pySpace c = false := h c (by simp)
    have hr := ih t fun d hd => h d (by simp [hd])
    simp only [List.cons_append, pyWordsAux, hc, Bool.false_eq_true, if_false,
      List.append_eq, hr]

/-- Splitting the space-joined rendering of non-empty, whitespace-free
words gives back exactly those words. -/
theorem pyWords_joinWords :
    ∀ ws : List (List Char),
      (∀ w ∈ ws, w ≠ [] ∧ ∀ c ∈ w, pySpace c = false) →
      pyWords (joinWords ws) = ws := by
  intro ws
  induction ws with
  | nil => intro _; rfl
  | cons w ws ih =>
    intro h
    obtain ⟨hne, hsp⟩ := h w (by simp)
    cases ws with
    | nil =>
      rcases w with _ | ⟨c, r⟩
      · exact absurd rfl hne
      · have hc : pySpace c = false := hsp c (by simp)
        have hr := pyWordsAux_true_of_nonspace r fun d hd => hsp d (by simp [hd])
        simp [joinWords, pyWords, pyWordsAux, hc, hr]
    | cons w' ws' =>
      have hj : joinWords (w :: w' :: ws') = w ++ ' ' :: joinWords (w' :: ws') :=
        rfl
      rcases w with _ | ⟨c, r⟩
      · exact absurd rfl hne
      · have hc : pySpace c = false := hsp c (by simp)
        have hr := pyWordsAux_true_append_space r (joinWords (w' :: ws'))
          fun d hd => hsp d (by simp [hd])
        have hrec := ih fun u hu => h u (by simp [hu])
        simp only [hj, pyWords, List.cons_append, pyWordsAux, hc,
          Bool.false_eq_true, if_false, List.append_eq, hr]
        rw [show pyWordsAux false (joinWords (w' :: ws')) =
            pyWords (joinWords (w' :: ws')) from rfl, hrec]

/-- Joint induction relating the sentence splitter to `str.split()`:
(1) the concatenated words of the sentences of `cs` are the words of `cs`
(for either value of the lookbehind flag), (2) likewise when the scan
starts inside a separator run, and (3) in word mode the words of `cs`
decompose as the words of the first sentence followed by the words of the
remaining sentences. -/
theorem words_of_sentences_joint :
    ∀ cs : List Char,
      (∀ p : Bool, ((sentencesAux p false cs).map pyWords).flatten = pyWords cs) ∧
        ((sentencesAux false true cs).map pyWords).flatten = pyWords cs ∧
        (∀ p : Bool,
          pyWordsAux true cs =
            consJoin (pyWordsAux true ((sentencesAux p false cs).headI))
              (((sentencesAux p false cs).tail).map pyWords).flatten) := by
  intro cs
  induction cs with
  | nil =>
    refine ⟨fun p => ?_, ?_, fun p => ?_⟩ <;>
      simp [sentencesAux, pyWords, pyWordsAux, consJoin]
  | cons c rest ih =>
    obtain ⟨ih1, ih2, ih3⟩ := ih
    by_cases hc : pySpace c
    · have e3 : pyWords (c :: rest) = pyWords rest := by
        simp [pyWords, pyWordsAux, hc]
      have eL : pyWordsAux true (c :: rest) = [] :: pyWordsAux false rest := by
        simp [pyWordsAux, hc]
      refine ⟨fun p => ?_, ?_, fun p => ?_⟩
      · cases p with
        | false =>
          rcases hss : sentencesAux false false rest with _ | ⟨s, ss⟩
          · exact absurd hss (sentencesAux_ne_nil rest false false)
          · have e1 : sentencesAux false false (c :: rest) = (c :: s) :: ss := by
              simp [sentencesAux, hc, hss]
            have e2 : pyWords (c :: s) = pyWords s := by
              simp [pyWords, pyWordsAux, hc]
            have h1 := ih1 false
            rw [hss] at h1
            simp only [List.map_cons, List.flatten_cons] at h1
            rw [e1, e3]
            simp only [List.map_cons, List.flatten_cons, e2]
            exact h1
        | true =>
          have e1 : sentencesAux true false (c :: rest) =
              [] :: sentencesAux false true rest := by
            simp [sentencesAux, hc]
          rw [e1, e3]
          simp only [List.map_cons, List.flatten_cons,
            show pyWords [] = [] from rfl, List.nil_append]
          exact ih2
      · have e1 : sentencesAux false true (c :: rest) =
            sentencesAux false true rest := by
          simp [sentencesAux, hc]
        rw [e1, e3]
        exact ih2
      · cases p with
        | false =>
          rcases hss : sentencesAux false false rest with _ | ⟨s, ss⟩
          · exact absurd hss (sentencesAux_ne_nil rest false false)
          · have e1 : sentencesAux false false (c :: rest) = (c :: s) :: ss := by
              simp [sentencesAux, hc, hss]
            have eH : pyWordsAux true (c :: s) = [] :: pyWordsAux false s := by
              simp [pyWordsAux, hc]
            have h1 := ih1 false
            rw [hss] at h1
            simp only [List.map_cons, List.flatten_cons] at h1
            rw [eL, e1]
            simp only [List.headI_cons, List.tail_cons, eH, consJoin]
            rw [show pyWordsAux false s = pyWords s from rfl, h1]
            rfl
        | true =>
          have e1 : sentencesAux true false (c :: rest) =
              [] :: sentencesAux false true rest := by
            simp [sentencesAux, hc]
          rw [eL, e1]
          simp only [List.headI_cons, List.tail_cons,
            show pyWordsAux true [] = [[]] from rfl, consJoin]
          rw [show pyWordsAux false rest = pyWords rest from rfl, ← ih2]
          simp
    · rcases hss : sentencesAux (sentPunct c) false rest with _ | ⟨s, ss⟩
      · exact absurd hss (sentencesAux_ne_nil rest (sentPunct c) false)
      · rcases hw : pyWordsAux true s with _ | ⟨h1, t1⟩
        · exact absurd hw (pyWordsAux_true_ne_nil s)
        · have h3 := ih3 (sentPunct c)
          rw [hss] at h3
          simp only [List.headI_cons, List.tail_cons, hw, consJoin] at h3
          have e1 : ∀ p : Bool,
              sentencesAux p false (c :: rest) = (c :: s) :: ss := by
            intro p
            cases p <;> simp [sentencesAux, hc, hss]
          have e1sep : sentencesAux false true (c :: rest) = (c :: s) :: ss := by
            simp [sentencesAux, hc, hss]
          have eWcs : pyWords (c :: s) = (c :: h1) :: t1 := by
            simp [pyWords, pyWordsAux, hc, hw]
          have eWTcs : pyWordsAux true (c :: s) = (c :: h1) :: t1 := by
            simp [pyWordsAux, hc, hw]
          have eWrest : pyWords (c :: rest) =
              (c :: h1) :: (t1 ++ ((ss.map pyWords).flatten)) := by
            simp [pyWords, pyWordsAux, hc, h3]
          have eWTrest : pyWordsAux true (c :: rest) =
              (c :: h1) :: (t1 ++ ((ss.map pyWords).flatten)) := by
            simp [pyWordsAux, hc, h3]
          refine ⟨fun p => ?_, ?_, fun p => ?_⟩
          · rw [e1 p, eWrest]
            simp only [List.map_cons, List.flatten_cons, eWcs]
            rfl
          · rw [e1sep, eWrest]
            simp only [List.map_cons, List.flatten_cons, eWcs]
            rfl
          · rw [e1 p, eWTrest]
            simp only [List.headI_cons, List.tail_cons, eWTcs, consJoin]

/-- The words of a text are the concatenated words of its sentences (the
sentence separators are whitespace, so they never split or create a
word). -/
theorem flatten_words_splitSentences (cs : List Char) :
    ((splitSentences cs).map pyWords).flatten = pyWords cs :=
  (words_of_sentences_joint cs).1 false

/-! ## C6: the chunker accepts every configuration -/

/-- The accumulation loop returns no chunks exactly when the current chunk
is empty and every remaining sentence has no words — for every
configuration, valid or not. -/
theorem splitChunks_eq_nil_iff (cs ov : Nat) :
    ∀ (sents : List (List Char)) (cur : List (List Char)) (sz : Nat),
      splitChunks cs ov sents cur sz = [] ↔
        (cur = [] ∧ ∀ s ∈ sents, pyWords s = []) := by
  intro sents
  induction sents with
  | nil =>
    intro cur sz
    constructor
    · intro h
      by_cases hcur : cur = []
      · exact ⟨hcur, by simp⟩
      · rw [splitChunks, if_neg hcur] at h
        exact absurd h (by simp)
    · intro ⟨hcur, _⟩
      rw [splitChunks, if_pos hcur]
  | cons s rest ih =>
    intro cur sz
    rw [splitChunks]
    simp only []
    split
    · rename_i hcond
      constructor
      · intro h
        exact absurd h (by simp)
      · intro ⟨hcur, _⟩
        exact absurd hcur hcond.2
    · rename_i hcond
      rw [ih]
      constructor
      · intro ⟨happ, hrest⟩
        rcases List.append_eq_nil.mp happ with ⟨hcur, hw⟩
        exact ⟨hcur, by
          intro u hu
          rcases List.mem_cons.mp hu with hu | hu
          · rw [hu]; exact hw
          · exact hrest u hu⟩
      · intro ⟨hcur, hall⟩
        have hw : pyWords s = [] := hall s (by simp)
        exact ⟨by simp [hcur, hw], fun u hu => hall u (by simp [hu])⟩

/-- C6 (amended): the chunker performs no configuration validation and
never rejects: for every configuration with `overlap ≥ chunk_size` it
still returns a plain chunk sequence, which is empty exactly when the
input text contains no words. -/
theorem C6_chunker_accepts_invalid_configurations
    (text : String) (chunk_size overlap : Nat)
    (_h : chunk_size ≤ overlap) :
    split_text_intelligent text chunk_size overlap = [] ↔
      pyWords text.toList = [] := by
  unfold split_text_intelligent
  rw [List.map_eq_nil_iff, splitChunks_eq_nil_iff]
  constructor
  · intro ⟨_, hall⟩
    rw [← flatten_words_splitSentences text.toList]
    exact List.flatten_eq_nil_iff.mpr (by
      intro l hl
      rcases List.mem_map.mp hl with ⟨u, hu, rfl⟩
      exact hall u hu)
  · intro h
    refine ⟨rfl, fun u hu => ?_⟩
    have := flatten_words_splitSentences text.toList
    rw [h] at this
    exact List.flatten_eq_nil_iff.mp this (pyWords u)
      (List.mem_map.mpr ⟨u, hu, rfl⟩)

/-- Counterexample to C6 as stated: with `chunk_size = 1 ≤ 2 = overlap` the
chunker does not reject the configuration — it returns a (non-empty) chunk
sequence. -/
theorem C6_counterexample :
    (1 : Nat) ≤ 2 ∧ split_text_intelligent "a. b." 1 2 = ["a.", "a. b."] := by
  constructor
  · decide
  · decide

/-- Witness for C6 (amended) at a concrete invalid configuration. -/
theorem C6_chunker_accepts_invalid_configurations_witness :
    (1 : Nat) ≤ 2 ∧
      (split_text_intelligent "a. b." 1 2 = [] ↔ pyWords "a. b.".toList = []) :=
  ⟨by decide, C6_chunker_accepts_invalid_configurations "a. b." 1 2 (by decide)⟩

/-! ## C5: overlap-deduplicated coverage -/

/-- Every word of every chunk produced by the accumulation loop comes from
the current chunk or from the words of one of the remaining sentences. -/
theorem splitChunks_words_from (cs ov : Nat) :
    ∀ (sents : List (List Char)) (cur : List (List Char)) (sz : Nat)
      (ch : List (List Char)), ch ∈ splitChunks cs ov sents cur sz →
        ∀ w ∈ ch, w ∈ cur ∨ ∃ s ∈ sents, w ∈ pyWords s := by
  intro sents
  induction sents with
  | nil =>
    intro cur sz ch hch w hw
    by_cases hcur : cur = []
    · rw [splitChunks, if_pos hcur] at hch
      exact absurd hch (by simp)
    · rw [splitChunks, if_neg hcur] at hch
      simp at hch
      subst hch
      exact Or.inl hw
  | cons s rest ih =>
    intro cur sz ch hch w hw
    rw [splitChunks] at hch
    simp only [] at hch
    split at hch
    · rcases List.mem_cons.mp hch with hch | hch
      · subst hch
        exact Or.inl hw
      · rcases ih _ _ ch hch w hw with hmem | ⟨s', hs', hws'⟩
        · rcases List.mem_append.mp hmem with hmem | hmem
          · refine Or.inl ?_
            split at hmem
            · unfold pyTailSlice at hmem
              split at hmem
              · exact hmem
              · exact List.mem_of_mem_drop hmem
            · exact hmem
          · exact Or.inr ⟨s, by simp, hmem⟩
        · exact Or.inr ⟨s', by simp [hs'], hws'⟩
    · rcases ih _ _ ch hch w hw with hmem | ⟨s', hs', hws'⟩
      · rcases List.mem_append.mp hmem with hmem | hmem
        · exact Or.inl hmem
        · exact Or.inr ⟨s, by simp, hmem⟩
      · exact Or.inr ⟨s', by simp [hs'], hws'⟩

/-- Every word of every chunk of the chunker (started from an empty
current chunk) is non-empty and whitespace-free. -/
theorem splitChunks_words_ok (cs ov : Nat) (sents : List (List Char)) :
    ∀ ch ∈ splitChunks cs ov sents [] 0,
      ∀ w ∈ ch, w ≠ [] ∧ ∀ c ∈ w, pySpace c = false := by
  intro ch hch w hw
  rcases splitChunks_words_from cs ov sents [] 0 ch hch w hw with hcur | ⟨s, _, hws⟩
  · exact absurd hcur (by simp)
  · exact ⟨(pyWordsAux_ne_nil s).1 w hws, pyWordsAux_nonspace s false w hws⟩

/-- On chunks whose words are non-empty and whitespace-free, re-splitting
the joined chunk strings recovers the word lists, so the string-level
overlap reconstruction agrees with the token-level one. -/
theorem reconWordsAux_map_eq (ov : Nat) :
    ∀ (chs : List (List (List Char))) (prev : List (List Char)),
      (∀ ch ∈ chs, ∀ w ∈ ch, w ≠ [] ∧ ∀ c ∈ w, pySpace c = false) →
      reconWordsAux ov prev (chs.map fun ch => String.mk (joinWords ch)) =
        reconTokAux ov prev chs := by
  intro chs
  induction chs with
  | nil => intro prev _; rfl
  | cons ch chs ih =>
    intro prev h
    have hws : chunkWords (String.mk (joinWords ch)) = ch := by
      unfold chunkWords
      rw [show (String.mk (joinWords ch)).toList = joinWords ch from rfl]
      exact pyWords_joinWords ch (h ch (by simp))
    simp only [List.map_cons, reconWordsAux, reconTokAux, hws]
    rw [ih ch fun u hu => h u (by simp [hu])]

/-- For a positive overlap the seed taken from a closed chunk is exactly
its last `min overlap length` words. -/
theorem overlap_words_eq_drop (ov : Nat) (hov : 0 < ov)
    (cur : List (List Char)) :
    (if cur.length > ov then pyTailSlice ov cur else cur) =
      cur.drop (cur.length - ov) := by
  unfold pyTailSlice
  by_cases h : cur.length > ov
  · simp [h, Nat.pos_iff_ne_zero.mp hov]
  · have : cur.length - ov = 0 := by omega
    simp [h, this]

/-- Main coverage invariant of the accumulation loop: starting from a
non-empty current chunk, the first emitted chunk extends the current chunk
and the overlap-deduplicated reconstruction of the emitted chunks is the
current chunk followed by all remaining sentences' words. -/
theorem splitChunks_coverage (cs ov : Nat) (hov : 0 < ov) :
    ∀ (sents : List (List Char)) (cur : List (List Char)), cur ≠ [] →
      ∃ t tail,
        splitChunks cs ov sents cur cur.length = (cur ++ t) :: tail ∧
          reconTok ov (splitChunks cs ov sents cur cur.length) =
            cur ++ ((sents.map pyWords).flatten) := by
  intro sents
  induction sents with
  | nil =>
    intro cur hcur
    refine ⟨[], [], ?_, ?_⟩
    · rw [splitChunks, if_neg hcur, List.append_nil]
    · rw [splitChunks, if_neg hcur]
      simp [reconTok, reconTokAux]
  | cons s rest ih =>
    intro cur hcur
    rw [splitChunks]
    simp only []
    split
    · rename_i hcond
      set w := pyWords s with hw
      set seed := (if cur.length > ov then pyTailSlice ov cur else cur) with hseed
      have hseed_drop : seed = cur.drop (cur.length - ov) :=
        overlap_words_eq_drop ov hov cur
      have hseed_len : seed.length = min ov cur.length := by
        rw [hseed_drop, List.length_drop]
        omega
      have hseed_ne : seed ≠ [] := by
        rw [hseed_drop]
        intro hnil
        have := List.drop_eq_nil_iff.mp hnil
        have hl : 0 < cur.length := List.length_pos.mpr hcur
        omega
      have hsw_ne : seed ++ w ≠ [] := by
        intro hnil
        exact hseed_ne (List.append_eq_nil.mp hnil).1
      obtain ⟨t', tail', h1, h2⟩ := ih (seed ++ w) hsw_ne
      rw [h1]
      rw [h1] at h2
      refine ⟨[], (seed ++ w ++ t') :: tail', by rw [List.append_nil], ?_⟩
      have hdrop : (seed ++ w ++ t').drop (min ov cur.length) = w ++ t' := by
        rw [← hseed_len, List.append_assoc, List.drop_left]
      have hR : t' ++ reconTokAux ov (seed ++ w ++ t') tail' =
          (rest.map pyWords).flatten := by
        have h2' : (seed ++ w ++ t') ++ reconTokAux ov (seed ++ w ++ t') tail' =
            (seed ++ w) ++ (rest.map pyWords).flatten := by
          simpa [reconTok] using h2
        rw [List.append_assoc] at h2'
        exact List.append_cancel_left h2'
      show reconTok ov (cur :: (seed ++ w ++ t') :: tail') =
        cur ++ ((s :: rest).map pyWords).flatten
      rw [reconTok, reconTokAux, hdrop]
      simp only [List.map_cons, List.flatten_cons]
      rw [List.append_assoc w t' _, hR, ← hw]
    · rename_i hcond
      set w := pyWords s with hw
      have hne : cur ++ w ≠ [] := by
        intro hnil
        exact hcur (List.append_eq_nil.mp hnil).1
      have hlen : cur.length + w.length = (cur ++ w).length := by
        simp
      rw [hlen]
      obtain ⟨t', tail', h1, h2⟩ := ih (cur ++ w) hne
      refine ⟨w ++ t', tail', by rw [h1, List.append_assoc], ?_⟩
      rw [h2, List.append_assoc]
      simp [← hw]

/-- Coverage from the empty initial chunk: the reconstruction of all
emitted chunks is exactly the concatenated words of all sentences. -/
theorem splitChunks_coverage_nil (cs ov : Nat) (hov : 0 < ov) :
    ∀ sents : List (List Char),
      reconTok ov (splitChunks cs ov sents [] 0) =
        (sents.map pyWords).flatten := by
  intro sents
  induction sents with
  | nil => rfl
  | cons s rest ih =>
    rw [splitChunks]
    simp only [ne_eq, not_true_eq_false, and_false, if_false, List.nil_append,
      Nat.zero_add]
    by_cases hw : pyWords s = []
    · rw [hw]
      simp only [List.length_nil]
      rw [show (0 : Nat) = ([] : List (List Char)).length from rfl] at ih ⊢
      simpa [hw] using ih
    · obtain ⟨t, tail, h1, h2⟩ :=
        splitChunks_coverage cs ov hov rest (pyWords s) hw
      rw [h2]
      simp

/-- Top-level version of `reconWordsAux_map_eq`. -/
theorem reconstructWords_map_eq (ov : Nat) (chs : List (List (List Char)))
    (h : ∀ ch ∈ chs, ∀ w ∈ ch, w ≠ [] ∧ ∀ c ∈ w, pySpace c = false) :
    reconstructWords ov (chs.map fun ch => String.mk (joinWords ch)) =
      reconTok ov chs := by
  cases chs with
  | nil => rfl
  | cons ch chs =>
    have hws : chunkWords (String.mk (joinWords ch)) = ch := by
      unfold chunkWords
      rw [show (String.mk (joinWords ch)).toList = joinWords ch from rfl]
      exact pyWords_joinWords ch (h ch (by simp))
    simp only [List.map_cons, reconstructWords, reconTok, hws]
    rw [reconWordsAux_map_eq ov chs ch fun u hu => h u (by simp [hu])]

/-- C5 (amended): for every positive overlap smaller than the chunk size,
the words of the first chunk followed by each later chunk's words after
its first `min(overlap, words of previous chunk)` words reconstruct the
whitespace-split word sequence of the input text exactly; and chunking the
empty input returns the empty sequence. -/
theorem C5_overlap_deduplicated_coverage (text : String)
    (chunk_size overlap : Nat) (hov : 0 < overlap)
    (_hlt : overlap < chunk_size) :
    reconstructWords overlap (split_text_intelligent text chunk_size overlap) =
        pyWords text.toList ∧
      split_text_intelligent "" chunk_size overlap = [] := by
  constructor
  · unfold split_text_intelligent
    rw [reconstructWords_map_eq overlap _
      (splitChunks_words_ok chunk_size overlap (splitSentences text.toList))]
    rw [splitChunks_coverage_nil chunk_size overlap hov
      (splitSentences text.toList)]
    exact flatten_words_splitSentences text.toList
  · simp [split_text_intelligent, splitSentences, sentencesAux, splitChunks,
      pyWords, pyWordsAux]

/-- Counterexample to C5 as stated: at `overlap = 0` (allowed by
`overlap < chunk_size`) the overlap-deduplicated reconstruction
duplicates words, because the code seeds each new chunk with the entire
closed chunk (Python `[-0:]`) while the claim drops only `min(0, ·) = 0`
words. -/
theorem C5_counterexample :
    (0 : Nat) < 1 ∧
      reconstructWords 0 (split_text_intelligent "a. b." 1 0) ≠
        pyWords "a. b.".toList := by
  constructor
  · decide
  · decide

/-- Witness for C5 (amended) at a concrete configuration. -/
theorem C5_overlap_deduplicated_coverage_witness :
    (0 : Nat) < 1 ∧ (1 : Nat) < 2 ∧
      (reconstructWords 1 (split_text_intelligent "a. b." 2 1) =
          pyWords "a. b.".toList ∧
        split_text_intelligent "" 2 1 = []) :=
  ⟨by decide, by decide,
    C5_overlap_deduplicated_coverage "a. b." 2 1 (by decide) (by decide)⟩

/-! ## C1: the retrieval pipeline -/

/-- `argsortAsc` returns a permutation of `0, …, N-1`. -/
theorem argsortAsc_perm (xs : List ℚ) :
    (argsortAsc xs).Perm (List.range xs.length) :=
  List.mergeSort_perm (List.range xs.length) _

/-- `argsortAsc` has one entry per score. -/
theorem argsortAsc_length (xs : List ℚ) :
    (argsortAsc xs).length = xs.length := by
  rw [argsortAsc, List.length_mergeSort, List.length_range]

/-- For a non-zero slice width the Python tail slice `l[-n:]` is the drop
of all but the last `n` elements. -/
theorem pyTailSlice_of_ne_zero {α : Type _} (n : Nat) (l : List α)
    (h : n ≠ 0) : pyTailSlice n l = l.drop (l.length - n) := by
  unfold pyTailSlice
  rw [if_neg h]

/-- For a non-empty shortlist width, the code's shortlist (reverse of the
tail slice of the ascending argsort) is the spec's shortlist (prefix of
the descending order).  At width `0` they differ: the Python slice
`[-0:]` keeps the whole argsort. -/
theorem shortlist_code_eq_spec (similarities : List ℚ) (top_k : Nat)
    (h : min (top_k * 2) similarities.length ≠ 0) :
    (pyTailSlice (min (top_k * 2) similarities.length)
        (argsortAsc similarities)).reverse =
      shortlistSpec similarities top_k := by
  rw [pyTailSlice_of_ne_zero _ _ h, argsortAsc_length]
  unfold shortlistSpec
  rw [Nat.mul_comm top_k 2, List.take_reverse, argsortAsc_length]

/-- The running-best inner loop computes the left fold that keeps the
first strict maximizer. -/
theorem findBestAux_eq_fold (score : Nat → ℚ) :
    ∀ (xs : List Nat) (b : Nat),
      findBestAux score xs (some b) (some (score b)) =
        some (xs.foldl (fun acc i => if score i > score acc then i else acc) b) := by
  intro xs
  induction xs with
  | nil => intro b; rfl
  | cons i rest ih =>
    intro b
    rw [findBestAux]
    by_cases h : score b < score i
    · rw [if_pos (by simpa [gtOpt] using h)]
      rw [ih i]
      congr 1
      simp only [List.foldl_cons]
      rw [if_pos (by exact h)]
    · rw [if_neg (by simpa [gtOpt] using h)]
      rw [ih b]
      congr 1
      simp only [List.foldl_cons]
      rw [if_neg (by exact h)]

/-- On a non-empty candidate list the inner loop agrees with the spec's
pick (earliest shortlist rank wins ties). -/
theorem findBestAux_eq_specPick (score : Nat → ℚ) (x : Nat) (xs : List Nat) :
    findBestAux score (x :: xs) none none = specPick score (x :: xs) := by
  rw [findBestAux, if_pos (by simp [gtOpt]), findBestAux_eq_fold]
  rfl

/-- The code's selection loop agrees with the spec's greedy selection. -/
theorem rerankLoop_eq_specGreedy (similarities : List ℚ)
    (embeddings : List Vec) (dw : ℚ) :
    ∀ (fuel : Nat) (sel rem : List Nat),
      rerankLoop similarities embeddings dw fuel sel rem =
        specGreedy similarities embeddings dw fuel sel rem := by
  intro fuel
  induction fuel with
  | zero => intro sel rem; rfl
  | succ fuel ih =>
    intro sel rem
    cases rem with
    | nil => rfl
    | cons r rs =>
      rw [rerankLoop, specGreedy, findBestAux_eq_specPick]
      cases hp : specPick
          (combined_score similarities embeddings dw sel) (r :: rs) with
      | none => simp [specPick] at hp
      | some best => exact ih _ _

/-- `rerank_with_diversity` in terms of the spec's greedy selection. -/
theorem rerank_eq_specGreedy (candidate_indices : List Nat)
    (similarities : List ℚ) (embeddings : List Vec) (top_k : Nat) (dw : ℚ) :
    rerank_with_diversity candidate_indices similarities embeddings top_k dw =
      (if candidate_indices.length ≤ top_k then candidate_indices
       else
         match candidate_indices with
         | [] => []
         | c :: rest => specGreedy similarities embeddings dw (top_k - 1) [c] rest) := by
  rw [rerank_with_diversity.eq_def]
  split
  · rfl
  · cases candidate_indices with
    | nil => rfl
    | cons c rest => exact rerankLoop_eq_specGreedy _ _ _ _ _ _

/-- C1 (amended): on a session with at least one chunk and `top_k ≥ 1`,
retrieval is exactly the claim's pipeline: dot-product scoring, a
`min(2 * top_k, N)` descending shortlist, the shortlist itself when it
has at most `top_k` members, and otherwise the greedy
relevance/diversity selection seeded with the most relevant candidate,
returning selected chunk texts in order.  (At `top_k = 0` the code
diverges from the claim: Python's `[-0:]` slice keeps all `N`
candidates, so one chunk is returned instead of none.) -/
theorem C1_retrieval_matches_spec_pipeline (embed : String → Vec)
    (query : String) (session_id : Option String) (top_k : Nat)
    (store : DocStore) (l : List Vec)
    (hl : store.session_embeddings (session_id.getD "default") = some l)
    (hne : l ≠ []) (hk : 1 ≤ top_k) :
    retrieve_chunks embed query session_id top_k store =
      retrieveSpec embed query session_id top_k store := by
  have hnum :
      min (top_k * 2) (List.map (fun emb => dot (embed query) emb) l).length ≠ 0 := by
    have hlp : 0 < l.length := List.length_pos.mpr hne
    rw [List.length_map]
    omega
  simp only [retrieve_chunks, retrieveSpec]
  rw [hl]
  simp only [if_neg hne]
  rw [shortlist_code_eq_spec _ _ hnum, rerank_eq_specGreedy]

/-- Sorting the single index of a one-score list. -/
theorem argsortAsc_singleton (x : ℚ) : argsortAsc [x] = [0] := by
  unfold argsortAsc
  rw [show ([x] : List ℚ).length = 1 from rfl,
    show List.range 1 = [0] from rfl]
  exact List.perm_singleton.mp (List.mergeSort_perm [0] _)

/-- Counterexample to C1 as stated: at `top_k = 0` on a one-chunk session
the claim's pipeline shortlists `min(0, 1) = 0` candidates and returns
the empty shortlist as-is, but the code's NumPy slice
`argsort(similarities)[-0:]` keeps the whole argsort, so
`rerank_with_diversity` seeds with its first candidate and the `while`
loop (`len(selected) < 0`) never runs: one chunk is returned. -/
theorem C1_counterexample :
    retrieve_chunks (fun _ => [1]) "q" (some "s1") 0 miniStore = ["c0"] ∧
      retrieveSpec (fun _ => [1]) "q" (some "s1") 0 miniStore = [] := by
  constructor
  · simp [retrieve_chunks, miniStore, argsortAsc_singleton, pyTailSlice,
      rerank_with_diversity, rerankLoop]
  · simp [retrieveSpec, miniStore, shortlistSpec]

/-- Witness for C1 (amended) at a concrete store with three stored
chunks. -/
theorem C1_retrieval_matches_spec_pipeline_witness :
    retrieve_chunks (fun _ => [1, 0]) "q" (some "s1") 1 sampleStore =
      retrieveSpec (fun _ => [1, 0]) "q" (some "s1") 1 sampleStore :=
  C1_retrieval_matches_spec_pipeline (fun _ => [1, 0]) "q" (some "s1") 1
    sampleStore [[1, 0], [9/10, 1/2], [0, 1]] (by rfl) (by simp) (by simp)

/-! ## C10: result count and distinctness -/

/-- The first-maximizer fold picks one of its inputs. -/
theorem foldl_pick_mem (score : Nat → ℚ) :
    ∀ (xs : List Nat) (b : Nat),
      xs.foldl (fun acc i => if score i > score acc then i else acc) b ∈ b :: xs := by
  intro xs
  induction xs with
  | nil => intro b; simp
  | cons i rest ih =>
    intro b
    simp only [List.foldl_cons]
    by_cases h : score i > score b
    · rw [if_pos h]
      rcases List.mem_cons.mp (ih i) with h' | h' <;> simp [h']
    · rw [if_neg h]
      rcases List.mem_cons.mp (ih b) with h' | h' <;> simp [h']

/-- Each selection step appends one index, so the loop returns
`min fuel (number of remaining candidates)` further indices. -/
theorem rerankLoop_length (similarities : List ℚ) (embeddings : List Vec)
    (dw : ℚ) :
    ∀ (fuel : Nat) (sel rem : List Nat),
      (rerankLoop similarities embeddings dw fuel sel rem).length =
        sel.length + min fuel rem.length := by
  intro fuel
  induction fuel with
  | zero => intro sel rem; simp [rerankLoop]
  | succ fuel ih =>
    intro sel rem
    cases rem with
    | nil => simp [rerankLoop]
    | cons r rs =>
      rw [rerankLoop, findBestAux_eq_specPick, specPick]
      simp only []
      rw [ih]
      have hbest :
          rs.foldl
            (fun b i =>
              if combined_score similarities embeddings dw sel i >
                  combined_score similarities embeddings dw sel b then i else b) r ∈
            r :: rs :=
        foldl_pick_mem _ rs r
      rw [List.length_append, List.length_erase_of_mem hbest]
      simp only [List.length_cons, List.length_nil]
      rw [show rs.length + 1 - 1 = rs.length from rfl, Nat.succ_min_succ]
      omega

/-- The selection loop keeps the selected indices distinct and inside any
set containing the candidates. -/
theorem rerankLoop_nodup (similarities : List ℚ) (embeddings : List Vec)
    (dw : ℚ) (P : Nat → Prop) :
    ∀ (fuel : Nat) (sel rem : List Nat),
      sel.Nodup → rem.Nodup → (∀ i ∈ sel, P i) → (∀ i ∈ rem, P i) →
      (∀ i ∈ sel, i ∉ rem) →
      (rerankLoop similarities embeddings dw fuel sel rem).Nodup ∧
        ∀ i ∈ rerankLoop similarities embeddings dw fuel sel rem, P i := by
  intro fuel
  induction fuel with
  | zero => intro sel rem h1 _ h3 _ _; exact ⟨h1, h3⟩
  | succ fuel ih =>
    intro sel rem h1 h2 h3 h4 h5
    cases rem with
    | nil => exact ⟨h1, h3⟩
    | cons r rs =>
      rw [rerankLoop, findBestAux_eq_specPick, specPick]
      simp only []
      set best :=
        rs.foldl
          (fun b i =>
            if combined_score similarities embeddings dw sel i >
                combined_score similarities embeddings dw sel b then i else b) r
        with hbest_def
      have hbest : best ∈ r :: rs := foldl_pick_mem _ rs r
      apply ih
      · rw [List.nodup_append]
        refine ⟨h1, by simp, ?_⟩
        intro a ha hb
        simp at hb
        exact h5 a ha (hb ▸ hbest)
      · exact h2.erase best
      · intro i hi
        rcases List.mem_append.mp hi with hi | hi
        · exact h3 i hi
        · simp at hi
          exact hi ▸ h4 best hbest
      · intro i hi
        exact h4 i (List.mem_of_mem_erase hi)
      · intro i hi
        rcases List.mem_append.mp hi with hi | hi
        · intro hmem
          exact h5 i hi (List.mem_of_mem_erase hmem)
        · simp at hi
          subst hi
          exact h2.not_mem_erase

/-- `rerank_with_diversity` on a duplicate-free candidate list returns
`min top_k (number of candidates)` pairwise-distinct candidates. -/
theorem rerank_with_diversity_props (candidate_indices : List Nat)
    (similarities : List ℚ) (embeddings : List Vec) (top_k : Nat) (dw : ℚ)
    (P : Nat → Prop) (hnd : candidate_indices.Nodup)
    (hP : ∀ i ∈ candidate_indices, P i) (hk : 1 ≤ top_k) :
    (rerank_with_diversity candidate_indices similarities embeddings top_k dw).Nodup ∧
      (rerank_with_diversity candidate_indices similarities embeddings top_k dw).length =
        min top_k candidate_indices.length ∧
      ∀ i ∈ rerank_with_diversity candidate_indices similarities embeddings top_k dw,
        P i := by
  rw [rerank_with_diversity.eq_def]
  split
  · rename_i hle
    exact ⟨hnd, by omega, hP⟩
  · rename_i hgt
    cases candidate_indices with
    | nil => simp at hgt
    | cons c rest =>
      have hrest_nd : rest.Nodup := (List.nodup_cons.mp hnd).2
      have hc_notin : c ∉ rest := (List.nodup_cons.mp hnd).1
      obtain ⟨hnodup, hmem⟩ :=
        rerankLoop_nodup similarities embeddings dw P (top_k - 1) [c] rest
          (by simp) hrest_nd (by simpa using hP c (by simp))
          (fun i hi => hP i (by simp [hi])) (by simpa using hc_notin)
      refine ⟨hnodup, ?_, hmem⟩
      rw [rerankLoop_length]
      simp only [List.length_cons, List.length_nil] at hgt ⊢
      omega

/-- C10: on a session with `N ≥ 1` chunks and `top_k ≥ 1`, retrieval
returns exactly `min top_k N` chunk texts, drawn from pairwise-distinct
in-range stored chunk indices. -/
theorem C10_retrieval_count_and_distinct_indices (embed : String → Vec)
    (query : String) (session_id : Option String) (top_k : Nat)
    (store : DocStore) (l : List Vec)
    (hl : store.session_embeddings (session_id.getD "default") = some l)
    (hne : l ≠ []) (hk : 1 ≤ top_k) :
    ∃ idxs : List Nat,
      idxs.Nodup ∧
        idxs.length = min top_k l.length ∧
        (∀ i ∈ idxs, i < l.length) ∧
        retrieve_chunks embed query session_id top_k store =
          idxs.map fun i =>
            ((store.session_documents (session_id.getD "default")).getD []).getD i "" := by
  simp only [retrieve_chunks]
  rw [hl]
  simp only [if_neg hne]
  set sims := List.map (fun emb => dot (embed query) emb) l with hsims
  have hslen : sims.length = l.length := by rw [hsims, List.length_map]
  have hlp : 0 < l.length := List.length_pos.mpr hne
  have hnum_ne : min (top_k * 2) sims.length ≠ 0 := by omega
  rw [pyTailSlice_of_ne_zero _ _ hnum_ne, argsortAsc_length]
  set ti :=
    (List.drop (sims.length - min (top_k * 2) sims.length) (argsortAsc sims)).reverse
    with hti
  have hlen_ti : ti.length = min (top_k * 2) sims.length := by
    rw [hti, List.length_reverse, List.length_drop, argsortAsc_length]
    omega
  have hnd_ti : ti.Nodup := by
    rw [hti, List.nodup_reverse]
    exact ((argsortAsc_perm sims).nodup_iff.mpr
      (List.nodup_range sims.length)).sublist (List.drop_sublist _ _)
  have hmem_ti : ∀ i ∈ ti, i < l.length := by
    intro i hi
    rw [hti, List.mem_reverse] at hi
    have h1 : i ∈ argsortAsc sims := List.mem_of_mem_drop hi
    have h2 : i ∈ List.range sims.length := (argsortAsc_perm sims).mem_iff.mp h1
    rw [List.mem_range] at h2
    omega
  obtain ⟨h1, h2, h3⟩ :=
    rerank_with_diversity_props ti sims l top_k (3 / 10)
      (fun i => i < l.length) hnd_ti hmem_ti hk
  refine ⟨_, h1, ?_, h3, rfl⟩
  rw [h2, hlen_ti]
  omega

/-- Witness for C10 at a concrete store with three stored chunks. -/
theorem C10_retrieval_count_and_distinct_indices_witness :
    ∃ idxs : List Nat,
      idxs.Nodup ∧
        idxs.length = min 2 ([[1, 0], [9/10, 1/2], [0, 1]] : List Vec).length ∧
        (∀ i ∈ idxs, i < ([[1, 0], [9/10, 1/2], [0, 1]] : List Vec).length) ∧
        retrieve_chunks (fun _ => [1, 0]) "q" (some "s1") 2 sampleStore =
          idxs.map fun i =>
            ((sampleStore.session_documents
                ((some "s1").getD "default")).getD []).getD i "" :=
  C10_retrieval_count_and_distinct_indices (fun _ => [1, 0]) "q" (some "s1") 2
    sampleStore [[1, 0], [9/10, 1/2], [0, 1]] (by rfl) (by simp) (by simp)
